import Mathlib

/-!
# A verification development of the `hcproto` HipChat message parser

This file gives a shallow embedding, in Lean 4, of the Go package `hcproto`
(`hcproto.go`): a single-pass scanner extracting `@mentions`, `(emotion)`
tags and `http(s)://` links from chat messages, plus the per-link title
enrichment and the JSON serialization of the result.

Modelling conventions:
* Go strings are modelled as `List Nat` of byte values (each `< 256`).
* Go's multiple-return style `(value, width)` is kept as a pair; functions
  that can panic in Go (out-of-range slicing) return an `Option`, with
  `none` modelling the panic.
* Go standard-library helpers used by the code (`utf8.DecodeRuneInString`,
  `utf8.DecodeLastRune`, `unicode.IsSpace`, `sort.Search`, `strings.Index`)
  are embedded faithfully.  `unicode.IsLetter` / `unicode.IsDigit` are
  embedded exactly on the ASCII range and classify code points `≥ 0x80` as
  neither letters nor digits (the full Unicode tables are data, not logic;
  every concrete input below is ASCII).
* The HTTP fetch capability (`HTTPGetter`) is modelled as an injected
  oracle from a URL to the result of the page-title computation, and the
  `golang.org/x/net/html` tokenizer as an abstract stream of tokens.
-/

set_option maxHeartbeats 1600000

deriving instance DecidableEq for Except

namespace Hcproto

/-- Byte values of an ASCII string literal, the representation used for all
concrete message inputs.  (Every character used is `< 128`, so the bytes of
the UTF-8 encoding are exactly the code points.) -/
def asciiBytes (s : String) : List Nat :=
  s.data.map Char.toNat

/-- `utf8.RuneError`, Go's replacement character U+FFFD. -/
def runeError : Nat := 0xFFFD

/-- Is `b` a valid UTF-8 continuation byte (`0x80 ≤ b ≤ 0xBF`)? -/
def isCont (b : Nat) : Bool :=
  decide (0x80 ≤ b ∧ b ≤ 0xBF)

/-- Accept range for the second byte of a multi-byte sequence, following
the `acceptRanges` table of Go's `unicode/utf8`: the second byte's allowed
interval depends on the first byte. -/
def accept2 (b0 b1 : Nat) : Bool :=
  if b0 = 0xE0 then decide (0xA0 ≤ b1 ∧ b1 ≤ 0xBF)
  else if b0 = 0xED then decide (0x80 ≤ b1 ∧ b1 ≤ 0x9F)
  else if b0 = 0xF0 then decide (0x90 ≤ b1 ∧ b1 ≤ 0xBF)
  else if b0 = 0xF4 then decide (0x80 ≤ b1 ∧ b1 ≤ 0x8F)
  else isCont b1

/-- Model of Go `utf8.DecodeRuneInString`: decode the first code point of
the byte list, returning `(rune, size)`.  Invalid or truncated input gives
`(runeError, 1)`; the empty string gives `(runeError, 0)`, exactly as Go. -/
def decodeRuneInString (l : List Nat) : Nat × Nat :=
  match l with
  | [] => (runeError, 0)
  | b0 :: rest =>
    if b0 < 0x80 then (b0, 1)
    else if 0xC2 ≤ b0 ∧ b0 ≤ 0xDF then
      match rest with
      | b1 :: _ =>
        if isCont b1 then ((b0 - 0xC0) * 64 + (b1 - 0x80), 2)
        else (runeError, 1)
      | [] => (runeError, 1)
    else if 0xE0 ≤ b0 ∧ b0 ≤ 0xEF then
      match rest with
      | b1 :: b2 :: _ =>
        if accept2 b0 b1 ∧ isCont b2 then
          ((b0 - 0xE0) * 4096 + (b1 - 0x80) * 64 + (b2 - 0x80), 3)
        else (runeError, 1)
      | _ => (runeError, 1)
    else if 0xF0 ≤ b0 ∧ b0 ≤ 0xF4 then
      match rest with
      | b1 :: b2 :: b3 :: _ =>
        if accept2 b0 b1 ∧ isCont b2 ∧ isCont b3 then
          ((b0 - 0xF0) * 262144 + (b1 - 0x80) * 4096 + (b2 - 0x80) * 64
            + (b3 - 0x80), 4)
        else (runeError, 1)
      | _ => (runeError, 1)
    else (runeError, 1)

/-- Go `utf8.RuneStart`: a byte that is not a continuation byte. -/
def runeStart (b : Nat) : Bool :=
  !(isCont b)

/-- Backward search for the start byte of the last rune, modelling the
`for start--; start >= lim; start--` loop of Go `utf8.DecodeLastRune`.
Scans `k, k-1, …` down to `lim`; when nothing qualifies the loop leaves
`lim - 1` (clamped to `0`, as Go clamps its `-1`). -/
def findStart (p : List Nat) (lim : Nat) : Nat → Nat
  | 0 => if lim = 0 then 0 else lim - 1
  | k + 1 =>
    if k + 1 < lim then lim - 1
    else if runeStart (p.getD (k + 1) 0) then k + 1
    else findStart p lim k

/-- Model of Go `utf8.DecodeLastRune`: decode the code point ending at the
end of `p`, returning `(rune, size)`. -/
def decodeLastRune (p : List Nat) : Nat × Nat :=
  if p.length = 0 then (runeError, 0)
  else
    let last := p.getD (p.length - 1) 0
    if last < 0x80 then (last, 1)
    else
      let lim := p.length - 4
      let start := findStart p lim (p.length - 2)
      let rs := decodeRuneInString (p.drop start)
      if start + rs.2 = p.length then rs else (runeError, 1)

/-- Model of Go `unicode.IsLetter`, exact on ASCII; code points `≥ 0x80`
are classified as non-letters in this development (all concrete inputs of
the claims are ASCII). -/
def isLetter (r : Nat) : Bool :=
  decide ((65 ≤ r ∧ r ≤ 90) ∨ (97 ≤ r ∧ r ≤ 122))

/-- Model of Go `unicode.IsDigit`, exact on ASCII; code points `≥ 0x80`
are classified as non-digits in this development. -/
def isDigit (r : Nat) : Bool :=
  decide (48 ≤ r ∧ r ≤ 57)

/-- Model of Go `unicode.IsSpace`: the complete Unicode `White_Space`
set, exactly as Go's tables. -/
def isSpace (r : Nat) : Bool :=
  decide ((9 ≤ r ∧ r ≤ 13) ∨ r = 32 ∨ r = 0x85 ∨ r = 0xA0 ∨ r = 0x1680 ∨
    (0x2000 ≤ r ∧ r ≤ 0x200A) ∨ r = 0x2028 ∨ r = 0x2029 ∨ r = 0x202F ∨
    r = 0x205F ∨ r = 0x3000)

/-- Go slice `s[a:b]` (for `a ≤ b ≤ len s`, the only way it is used). -/
def sub (s : List Nat) (a b : Nat) : List Nat :=
  (s.drop a).take (b - a)

/-- Model of Go `strings.Index(s, needle)` for a single-byte needle (the
code only searches for `")"`): index of the first occurrence of byte `b`,
`none` for Go's `-1`. -/
def strIndex : List Nat → Nat → Option Nat
  | [], _ => none
  | x :: xs, b => if x = b then some 0 else (strIndex xs b).map (· + 1)

/-- Go string comparison `x < y`: bytewise lexicographic order. -/
def ltStr : List Nat → List Nat → Bool
  | [], [] => false
  | [], _ :: _ => true
  | _ :: _, [] => false
  | a :: as, b :: bs =>
    if a < b then true else if b < a then false else ltStr as bs

/-- The `i < j` loop of Go `sort.Search`, with fuel (the loop halves the
interval, so `n` iterations always suffice). -/
def sortSearchLoop (f : Nat → Bool) : Nat → Nat → Nat → Nat
  | 0, i, _ => i
  | fuel + 1, i, j =>
    if i < j then
      let h := (i + j) / 2
      if ! f h then sortSearchLoop f fuel (h + 1) j
      else sortSearchLoop f fuel i h
    else i

/-- Model of Go `sort.Search(n, f)`: smallest index in `[0, n]` at which
`f` flips to true, computed by the source's binary search. -/
def sortSearch (n : Nat) (f : Nat → Bool) : Nat :=
  sortSearchLoop f n 0 n

/-- `sort.SearchStrings(a, x)` = `sort.Search(len(a), fun i => a[i] >= x)`. -/
def searchStrings (a : List (List Nat)) (x : List Nat) : Nat :=
  sortSearch a.length (fun i => ! ltStr (a.getD i []) x)

/-- The supported emotions list of `hcproto.go` (kept sorted in the source;
binary search is performed on it). -/
def supportedEmotions : List (List Nat) :=
  [asciiBytes "atlassian", asciiBytes "bitbucket", asciiBytes "boom",
   asciiBytes "crucible", asciiBytes "fry", asciiBytes "ghost",
   asciiBytes "heart"]

/-- `func emotion(s string) (string, int)` of `hcproto.go`, verbatim: find
the first `)`; take `e := s[1:i]`; binary-search the vocabulary; on miss
return `("", 0)`.  On hit the source executes `return e, i + 1` — but `i`
was reassigned by `sort.SearchStrings`, so the returned width is the
vocabulary index plus one, not the width through the closing parenthesis.
(The Go slice `s[1:i]` would panic for `i = 0`; from `Parse` the function
is only called on text starting with `(`, where the first `)` is at index
`≥ 1`, and there `sub s 1 i` equals the Go slice.) -/
def emotion (s : List Nat) : List Nat × Nat :=
  match strIndex s 41 with
  | none => ([], 0)
  | some i =>
    if searchStrings supportedEmotions (sub s 1 i) <
          supportedEmotions.length ∧
        supportedEmotions.getD
          (searchStrings supportedEmotions (sub s 1 i)) [] = sub s 1 i then
      (sub s 1 i, searchStrings supportedEmotions (sub s 1 i) + 1)
    else ([], 0)

/-- The character class consumed by `mention`: Unicode letter, digit or
underscore. -/
def wordChar (r : Nat) : Bool :=
  isLetter r || isDigit r || r = 95

/-- The scan loop of `func mention`, with fuel (each step consumes at
least one byte, so `s.length` iterations always suffice): advance `i`
while the decoded rune is a `wordChar`. -/
def mentionLoop (s : List Nat) : Nat → Nat → Nat
  | 0, i => i
  | fuel + 1, i =>
    if i < s.length then
      if wordChar (decodeRuneInString (s.drop i)).1 then
        mentionLoop s fuel (i + (decodeRuneInString (s.drop i)).2)
      else i
    else i

/-- `func mention(s string) (string, int)` of `hcproto.go`: starting after
the `@` (at byte 1), greedily consume word characters; if nothing was
consumed return `("", 0)`, else `(s[1:i], i)`. -/
def mention (s : List Nat) : List Nat × Nat :=
  if mentionLoop s s.length 1 = 1 then ([], 0)
  else (sub s 1 (mentionLoop s s.length 1), mentionLoop s s.length 1)

/-- Specification-side rune-run measure used to state the claims about
`mention`: the total byte length of the maximal leading run of `wordChar`
code points of `l` (with fuel, as the recursion drops `size ≥ 1` bytes a
step). -/
def runLenF : Nat → List Nat → Nat
  | 0, _ => 0
  | fuel + 1, l =>
    if l.isEmpty then 0
    else if wordChar (decodeRuneInString l).1 then
      (decodeRuneInString l).2 + runLenF fuel (l.drop (decodeRuneInString l).2)
    else 0

/-- Byte length of the maximal leading `wordChar` run of `l`. -/
def runLen (l : List Nat) : Nat :=
  runLenF l.length l

/-- The scan loop of `func spaceIndex`, with fuel: byte index of the first
Unicode whitespace code point, `none` for Go's `-1`. -/
def spaceIndexLoop (s : List Nat) : Nat → Nat → Option Nat
  | 0, _ => none
  | fuel + 1, i =>
    if i < s.length then
      if isSpace (decodeRuneInString (s.drop i)).1 then some i
      else spaceIndexLoop s fuel (i + (decodeRuneInString (s.drop i)).2)
    else none

/-- `func spaceIndex(s string) int` of `hcproto.go`. -/
def spaceIndex (s : List Nat) : Option Nat :=
  spaceIndexLoop s s.length 0

/-- ASCII lowercasing of one byte.  `strings.ToLower(s[:4])` in the source
is full Unicode lowercasing of the 4-byte prefix; for the only use made of
it (equality with `"http"`/`"https"`), bytewise ASCII lowercasing is
equivalent: the result can only equal those ASCII strings when all four
bytes are single-byte ASCII runes, where the two lowercasings agree. -/
def toLowerByte (b : Nat) : Nat :=
  if 65 ≤ b ∧ b ≤ 90 then b + 32 else b

/-- Model of the success predicate of Go `net/url.Parse` on the candidates
the scanner produces: `net/url` rejects URLs containing ASCII control
bytes; the candidates (cut at the first whitespace) are otherwise accepted.
Modelled from the stdlib, which is outside this repository; the claims
below never depend on its exact boundary, only on concrete ASCII inputs. -/
def urlParseOk (l : List Nat) : Bool :=
  l.all (fun b => decide (32 ≤ b ∧ b ≠ 127))

/-- The `proto` string built by `func link`: the ASCII-lowercased 4-byte
prefix, extended by `"s"` when the fifth byte is `s`/`S`. -/
def linkProto (s : List Nat) : List Nat :=
  if s.getD 4 0 = 115 ∨ s.getD 4 0 = 83 then
    (s.take 4).map toLowerByte ++ [115]
  else (s.take 4).map toLowerByte

/-- The end of the URL candidate in `func link`: the first whitespace, or
the end of the text (`spaceIndex` returning `-1`). -/
def linkEnd (s : List Nat) : Nat :=
  match spaceIndex s with
  | none => s.length
  | some k => k

/-- `func link(s string) (string, int)` of `hcproto.go`.  `none` models the
Go panic: after the scheme is extended to `https` (`pl = 5`) the source
evaluates `s[pl : pl+3]` which is out of range when `len(s) = 7` — the
`len(s) < 7` guard is too weak for the 5-byte scheme. -/
def link (s : List Nat) : Option (List Nat × Nat) :=
  if s.length < 7 then some ([], 0)
  else if linkProto s ≠ asciiBytes "http" ∧
      linkProto s ≠ asciiBytes "https" then
    some ([], 0)
  else if s.length < (linkProto s).length + 3 then none
  else if sub s (linkProto s).length ((linkProto s).length + 3) ≠
      asciiBytes "://" then
    some ([], 0)
  else if urlParseOk (s.take (linkEnd s)) then
    some (s.take (linkEnd s), (s.take (linkEnd s)).length)
  else some ([], 0)

/-- `type Link struct` of `hcproto.go`: a URL and the title of the page it
points to. -/
structure Link where
  url : List Nat
  title : List Nat
deriving DecidableEq, Repr

/-- `type MsgInfo struct` of `hcproto.go`: mentions, emotions and links of
a message.  (In `Parse` the Go slices are `nil` exactly when empty, so
plain Lean lists model them without loss.) -/
structure MsgInfo where
  mentions : List (List Nat)
  emotions : List (List Nat)
  links : List Link
deriving DecidableEq, Repr

/-- Failure of a `Parse` call: the decode error of the source (with the
byte position it reports), or the modelled out-of-range panic in `link`. -/
inductive PErr where
  | decodeErr (pos : Nat)
  | panic
deriving DecidableEq, Repr

/-- The word-boundary condition of the `'H', 'h'` dispatch arm of
`Parser.Parse` (`start` in the source): at the start of the text, or after
a code point that is neither a letter nor a digit
(`utf8.DecodeLastRune` of the prefix). -/
def linkStart (msg : List Nat) (i : Nat) : Bool :=
  if 0 < i then
    let r2 := (decodeLastRune (msg.take i)).1
    !(isLetter r2) && !(isDigit r2)
  else true

/-- The scan loop of `Parser.Parse`, with fuel (every iteration advances
`i` by at least one byte, so `msg.length` iterations always suffice; the
fuel-exhaustion arm is unreachable).  At each position: decode a rune,
fail on `utf8.RuneError`, dispatch on `(` / `@` / `H`,`h`, and advance by
the extractor's width on a hit or by the rune size otherwise. -/
def scanLoop (msg : List Nat) :
    Nat → Nat → List (List Nat) → List (List Nat) → List (List Nat) →
    Except PErr (List (List Nat) × List (List Nat) × List (List Nat))
  | fuel, i, ms, es, us =>
    if i < msg.length then
      match fuel with
      | 0 => .error .panic
      | fuel + 1 =>
        if (decodeRuneInString (msg.drop i)).1 = runeError then
          .error (.decodeErr i)
        else if (decodeRuneInString (msg.drop i)).1 = 40 then
          if (emotion (msg.drop i)).1 ≠ [] then
            scanLoop msg fuel (i + (emotion (msg.drop i)).2) ms
              (es ++ [(emotion (msg.drop i)).1]) us
          else
            scanLoop msg fuel (i + (decodeRuneInString (msg.drop i)).2)
              ms es us
        else if (decodeRuneInString (msg.drop i)).1 = 64 then
          if (mention (msg.drop i)).1 ≠ [] then
            scanLoop msg fuel (i + (mention (msg.drop i)).2)
              (ms ++ [(mention (msg.drop i)).1]) es us
          else
            scanLoop msg fuel (i + (decodeRuneInString (msg.drop i)).2)
              ms es us
        else if (decodeRuneInString (msg.drop i)).1 = 72 ∨
            (decodeRuneInString (msg.drop i)).1 = 104 then
          if linkStart msg i then
            match link (msg.drop i) with
            | none => .error .panic
            | some un =>
              if un.1 ≠ [] then
                scanLoop msg fuel (i + un.2) ms es (us ++ [un.1])
              else
                scanLoop msg fuel (i + (decodeRuneInString (msg.drop i)).2)
                  ms es us
          else
            scanLoop msg fuel (i + (decodeRuneInString (msg.drop i)).2)
              ms es us
        else
          scanLoop msg fuel (i + (decodeRuneInString (msg.drop i)).2)
            ms es us
    else .ok (ms, es, us)

/-- The pure scanning part of `Parser.Parse`: the accumulated mentions,
emotions and raw URLs, or the error aborting the parse. -/
def scan (msg : List Nat) :
    Except PErr (List (List Nat) × List (List Nat) × List (List Nat)) :=
  scanLoop msg msg.length 0 [] [] []

/-- The per-URL enrichment done in `urlsToLinks`: build a `Link` from the
URL and the injected title oracle (modelling `pagetTitle` through the
`HTTPGetter` capability), a failed fetch or markup parse surfacing as an
empty title (`t, _ := p.pagetTitle(u)` drops the error). -/
def enrich (titles : List Nat → Except Unit (List Nat)) (u : List Nat) :
    Link :=
  { url := u
    title := match titles u with
      | .ok t => t
      | .error _ => [] }

/-- `Parser.urlsToLinks` of `hcproto.go`.  Zero URLs yield `nil`; one URL
is fetched synchronously; for two or more the goroutines deliver into a
channel in completion order, modelled by the explicit `sched` list (a
permutation of `urls` chosen by the scheduler). -/
def urlsToLinks (titles : List Nat → Except Unit (List Nat))
    (sched : List (List Nat)) (urls : List (List Nat)) : List Link :=
  match urls with
  | [] => []
  | [u] => [enrich titles u]
  | _ => sched.map (enrich titles)

/-- `Parser.Parse` of `hcproto.go`: scan the message, then enrich the
discovered URLs into links.  Any scan failure is the failure of the whole
call — no partial result exists (`Except` returns no `MsgInfo` on error). -/
def parse (titles : List Nat → Except Unit (List Nat))
    (sched : List (List Nat)) (msg : List Nat) : Except PErr MsgInfo :=
  (scan msg).map (fun r =>
    { mentions := r.1, emotions := r.2.1,
      links := urlsToLinks titles sched r.2.2 })

/-- A JSON value, as far as `json.Marshal` of a `MsgInfo` produces one:
strings, arrays and objects (field name, value).  Field names are byte
lists like all strings of the model. -/
inductive Json where
  | str (s : List Nat)
  | arr (xs : List Json)
  | obj (fields : List (List Nat × Json))

/-- The string coercion of `encoding/json`'s string encoder, with fuel:
the encoder walks the string with `utf8.DecodeRuneInString` and replaces
each byte of invalid UTF-8 (`RuneError` with size 1) by `�`, the
3-byte encoding of U+FFFD; valid code points — a validly encoded U+FFFD
included — pass through unchanged.  (The escaping of quotes, control
characters and `<`, `>`, `&` in the JSON text is lossless and invisible at
this AST level; the U+FFFD coercion is the encoder's only lossy step.) -/
def coerceUtf8F : Nat → List Nat → List Nat
  | 0, _ => []
  | fuel + 1, l =>
    if l.isEmpty then []
    else if (decodeRuneInString l).1 = runeError ∧
        (decodeRuneInString l).2 ≤ 1 then
      0xEF :: 0xBF :: 0xBD :: coerceUtf8F fuel (l.drop 1)
    else
      l.take (decodeRuneInString l).2 ++
        coerceUtf8F fuel (l.drop (decodeRuneInString l).2)

/-- What a string value looks like after `json.Marshal` and
`json.Unmarshal`: invalid UTF-8 bytes replaced by U+FFFD. -/
def coerceUtf8 (l : List Nat) : List Nat :=
  coerceUtf8F l.length l

/-- `json.Marshal` of one `Link` value: both fields are always present
(no `omitempty` on `Link`), their string values UTF-8-coerced by the
encoder. -/
def encodeLink (l : Link) : Json :=
  .obj [(asciiBytes "url", .str (coerceUtf8 l.url)),
    (asciiBytes "title", .str (coerceUtf8 l.title))]

/-- A `Link` as it comes back from a `Marshal`/`Unmarshal` round trip:
both strings UTF-8-coerced. -/
def coerceLink (l : Link) : Link :=
  { url := coerceUtf8 l.url, title := coerceUtf8 l.title }

/-- A `MsgInfo` as it comes back from a `Marshal`/`Unmarshal` round trip:
every string UTF-8-coerced. -/
def coerceMsgInfo (mi : MsgInfo) : MsgInfo :=
  { mentions := mi.mentions.map coerceUtf8
    emotions := mi.emotions.map coerceUtf8
    links := mi.links.map coerceLink }

/-- The field list `json.Marshal` produces for a `MsgInfo`: each of the
three `omitempty` fields is present exactly when its (original) list is
nonempty; string values are UTF-8-coerced by the encoder. -/
def encodeFields (mi : MsgInfo) : List (List Nat × Json) :=
  (if mi.mentions.isEmpty then [] else
    [(asciiBytes "mentions",
      .arr (mi.mentions.map (fun s => .str (coerceUtf8 s))))]) ++
  (if mi.emotions.isEmpty then [] else
    [(asciiBytes "emotions",
      .arr (mi.emotions.map (fun s => .str (coerceUtf8 s))))]) ++
  (if mi.links.isEmpty then [] else
    [(asciiBytes "links", .arr (mi.links.map encodeLink))])

/-- `json.Marshal` of a `MsgInfo` (the serialization done by
`Parser.ParseJSON` after a successful parse). -/
def encodeMsgInfo (mi : MsgInfo) : Json :=
  .obj (encodeFields mi)

/-- Object field lookup (first occurrence), as `json.Unmarshal` matches
keys. -/
def getField (fs : List (List Nat × Json)) (k : List Nat) : Option Json :=
  match fs with
  | [] => none
  | (n, v) :: rest => if n = k then some v else getField rest k

/-- `json.Unmarshal` of a `[]string` value. -/
def decodeStrList (j : Json) : Option (List (List Nat)) :=
  match j with
  | .arr xs => xs.mapM (fun x => match x with
      | .str s => some s
      | _ => none)
  | _ => none

/-- `json.Unmarshal` of one `Link` value. -/
def decodeLink (j : Json) : Option Link :=
  match j with
  | .obj fs =>
    match getField fs (asciiBytes "url"), getField fs (asciiBytes "title") with
    | some (.str u), some (.str t) => some { url := u, title := t }
    | _, _ => none
  | _ => none

/-- `json.Unmarshal` of a `MsgInfo`: an absent field leaves the zero value
(the empty list). -/
def decodeMsgInfo (j : Json) : Option MsgInfo :=
  match j with
  | .obj fs =>
    let dml := match getField fs (asciiBytes "mentions") with
      | none => some []
      | some v => decodeStrList v
    let del := match getField fs (asciiBytes "emotions") with
      | none => some []
      | some v => decodeStrList v
    let dll := match getField fs (asciiBytes "links") with
      | none => some []
      | some (.arr xs) => xs.mapM decodeLink
      | some _ => none
    match dml, del, dll with
    | some ms, some es, some ls =>
      some { mentions := ms, emotions := es, links := ls }
    | _, _, _ => none
  | _ => none

/-- A token of the `golang.org/x/net/html` tokenizer stream, as consumed
by `Parser.pagetTitle`: `tt := t.Next()` with the tag name (`t.TagName()`)
or text (`t.Text()`) attached.  The stream's end is the end of the list
(the real tokenizer then yields `ErrorToken`, which the model's equations
treat identically). -/
inductive HTok where
  | err
  | text (s : List Nat)
  | startTag (name : List Nat)
  | endTag (name : List Nat)
  | selfClosing (name : List Nat)
  | comment (s : List Nat)
  | doctype (s : List Nat)
deriving DecidableEq, Repr

/-- Is the token a text token? -/
def HTok.isText : HTok → Bool
  | .text _ => true
  | _ => false

/-- The token loop of `Parser.pagetTitle`, on the fetched token stream:
error token (or end of stream) fails with the `invalid html` error; a
`title` start tag reads the next token and returns it if it is text — and
otherwise has consumed it and continues; a `body` start tag or a `head`
end tag returns the empty title; everything else (including a `head` start
tag: the `head` flag of the source is dead, as its guard is
`if true || head`) is skipped. -/
def pagetTitle (ts : List HTok) : Except Unit (List Nat) :=
  match ts with
  | [] => .error ()
  | .err :: _ => .error ()
  | .startTag name :: rest =>
    if name = asciiBytes "title" then
      match rest with
      | .text s :: _ => .ok s
      | _ :: rest2 => pagetTitle rest2
      | [] => .error ()
    else if name = asciiBytes "body" then .ok []
    else pagetTitle rest
  | .endTag name :: rest =>
    if name = asciiBytes "head" then .ok [] else pagetTitle rest
  | _ :: rest => pagetTitle rest

/-- Tokens that `pagetTitle` skips over without returning: everything but
an error token, a `title`/`body` start tag and a `head` end tag. -/
def neutralTok (t : HTok) : Bool :=
  match t with
  | .err => false
  | .startTag name =>
    !(name = asciiBytes "title") && !(name = asciiBytes "body")
  | .endTag name => !(name = asciiBytes "head")
  | _ => true

/-- Well-formedness of a byte list as UTF-8, by Go's own decoder: repeated
decoding never hits the invalid outcome `(RuneError, size ≤ 1)`.  (A
validly encoded U+FFFD decodes as `(RuneError, 3)` and is well-formed.) -/
def validUtf8F : Nat → List Nat → Bool
  | 0, l => l.isEmpty
  | fuel + 1, l =>
    if l.isEmpty then true
    else if (decodeRuneInString l).1 = runeError ∧
        (decodeRuneInString l).2 ≤ 1 then false
    else validUtf8F fuel (l.drop (decodeRuneInString l).2)

/-- The byte list is well-formed UTF-8. -/
def validUtf8 (l : List Nat) : Bool :=
  validUtf8F l.length l

/-- The width by which one iteration of the `Parse` loop advances from
byte position `i`, mirroring the dispatch of `scanLoop`; `none` is the
modelled panic of `link`. -/
def stepWidth (msg : List Nat) (i : Nat) : Option Nat :=
  if (decodeRuneInString (msg.drop i)).1 = 40 then
    some (if (emotion (msg.drop i)).1 ≠ [] then (emotion (msg.drop i)).2
      else (decodeRuneInString (msg.drop i)).2)
  else if (decodeRuneInString (msg.drop i)).1 = 64 then
    some (if (mention (msg.drop i)).1 ≠ [] then (mention (msg.drop i)).2
      else (decodeRuneInString (msg.drop i)).2)
  else if (decodeRuneInString (msg.drop i)).1 = 72 ∨
      (decodeRuneInString (msg.drop i)).1 = 104 then
    if linkStart msg i then
      match link (msg.drop i) with
      | none => none
      | some un => some (if un.1 ≠ [] then un.2
          else (decodeRuneInString (msg.drop i)).2)
    else some (decodeRuneInString (msg.drop i)).2
  else some (decodeRuneInString (msg.drop i)).2

/-- The byte positions at which the scan loop of `Parse` actually decodes
a code point: `Steps msg i p` says position `p` is visited when scanning
starts at position `i`.  Each step requires the decode at the current
position to succeed and the dispatch not to panic. -/
inductive Steps (msg : List Nat) : Nat → Nat → Prop where
  | refl (i : Nat) : Steps msg i i
  | head {i w p : Nat} : i < msg.length →
      (decodeRuneInString (msg.drop i)).1 ≠ runeError →
      stepWidth msg i = some w → Steps msg (i + w) p → Steps msg i p

example : asciiBytes "ab" = [97, 98] := by decide
example : decodeRuneInString (asciiBytes "ab") = (97, 1) := by decide
example : decodeRuneInString [0xC3, 0xA9] = (0xE9, 2) := by decide
example : decodeRuneInString [0xEF, 0xBF, 0xBD] = (runeError, 3) := by decide
example : decodeRuneInString [0xFF, 65] = (runeError, 1) := by decide
example : decodeLastRune (asciiBytes "ax") = (120, 1) := by decide
example : decodeLastRune [65, 0xC3, 0xA9] = (0xE9, 2) := by decide
example : decodeLastRune [0xC3] = (runeError, 1) := by decide
example : emotion (asciiBytes "(atlassian)") = (asciiBytes "atlassian", 1) := by decide
example : emotion (asciiBytes "(heart)") = (asciiBytes "heart", 7) := by decide
example : emotion (asciiBytes "(Atlassian)") = ([], 0) := by decide
example : emotion (asciiBytes "(non-emotion)x") = ([], 0) := by decide
example : emotion (asciiBytes "(boom") = ([], 0) := by decide
example : mention (asciiBytes "@one,@two") = (asciiBytes "one", 4) := by decide
example : mention (asciiBytes "@,x") = ([], 0) := by decide
example : mention (asciiBytes "@a_9z") = (asciiBytes "a_9z", 5) := by decide
example : runLen (asciiBytes "one,@two") = 3 := by decide
example : link (asciiBytes "http:/") = some ([], 0) := by decide
example : link (asciiBytes "https:/") = none := by decide
example : link (asciiBytes "http://a.com x") =
    some (asciiBytes "http://a.com", 12) := by decide
example : link (asciiBytes "HtTpS://x.y") =
    some (asciiBytes "HtTpS://x.y", 11) := by decide
example : link (asciiBytes "httpx//a.com") = some ([], 0) := by decide
example : scan (asciiBytes "@one,@two,some text,@three@four") =
    .ok ([asciiBytes "one", asciiBytes "two", asciiBytes "three",
          asciiBytes "four"], [], []) := by decide
example : scan (asciiBytes "(boom),(fry)x") =
    .ok ([], [asciiBytes "boom", asciiBytes "fry"], []) := by decide
example : scan (asciiBytes "xhttp://a.com") = .ok ([], [], []) := by decide
example : scan (asciiBytes " http://a.com") =
    .ok ([], [], [asciiBytes "http://a.com"]) := by decide
example : scan (asciiBytes "see https:/") = .error .panic := by decide
example : scan [64, 97, 0xFF, 33] = .error (.decodeErr 2) := by decide
example : scan [0xEF, 0xBF, 0xBD] = .error (.decodeErr 0) := by decide
example :
    pagetTitle [.startTag (asciiBytes "html"), .startTag (asciiBytes "head"),
      .startTag (asciiBytes "title"), .text (asciiBytes "T"),
      .endTag (asciiBytes "title")] = .ok (asciiBytes "T") := by decide
example :
    pagetTitle [.startTag (asciiBytes "html"),
      .startTag (asciiBytes "body")] = .ok [] := by decide
example :
    pagetTitle [.startTag (asciiBytes "title"), .endTag (asciiBytes "title"),
      .startTag (asciiBytes "body")] = .ok [] := by decide
example : pagetTitle [.startTag (asciiBytes "html")] = .error () := by decide
example : validUtf8 [0xEF, 0xBF, 0xBD] = true := by decide
example : validUtf8 [0xC3, 65] = false := by decide
example :
    decodeMsgInfo (encodeMsgInfo
      (MsgInfo.mk [asciiBytes "a"] [] [Link.mk (asciiBytes "http://x") []])) =
    some (MsgInfo.mk [asciiBytes "a"] [] [Link.mk (asciiBytes "http://x") []]) :=
  by decide

/-! ## Helper lemmas -/

theorem supportedEmotions_ne_nil : ∀ x ∈ supportedEmotions, x ≠ [] := by
  decide

theorem pagetTitle_neutral_cons (t : HTok) (h : neutralTok t = true)
    (L : List HTok) : pagetTitle (t :: L) = pagetTitle L := by
  cases t with
  | err => exact absurd h (by decide)
  | text s => rfl
  | startTag name =>
    simp only [neutralTok, Bool.and_eq_true, Bool.not_eq_true',
      decide_eq_false_iff_not] at h
    rw [pagetTitle.eq_def]
    simp only []
    rw [if_neg h.1, if_neg h.2]
  | endTag name =>
    simp only [neutralTok, Bool.not_eq_true', decide_eq_false_iff_not] at h
    rw [pagetTitle.eq_def]
    simp only []
    rw [if_neg h]
  | selfClosing name => rfl
  | comment s => rfl
  | doctype s => rfl

theorem pagetTitle_neutral_append (pre : List HTok)
    (h : pre.all neutralTok = true) (L : List HTok) :
    pagetTitle (pre ++ L) = pagetTitle L := by
  induction pre with
  | nil => rfl
  | cons t rest ih =>
    simp only [List.all_cons, Bool.and_eq_true] at h
    rw [List.cons_append, pagetTitle_neutral_cons t h.1, ih h.2]

theorem decodeRuneInString_snd_pos (l : List Nat) (h : l ≠ []) :
    1 ≤ (decodeRuneInString l).2 := by
  rcases l with _ | ⟨b0, rest⟩
  · exact absurd rfl h
  · rw [decodeRuneInString.eq_def]
    repeat' split
    all_goals simp_all

theorem decodeRuneInString_snd_le (l : List Nat) :
    (decodeRuneInString l).2 ≤ l.length := by
  rw [decodeRuneInString.eq_def]
  repeat' split
  all_goals simp_all

theorem mentionLoop_ge (s : List Nat) :
    ∀ fuel i, i ≤ mentionLoop s fuel i := by
  intro fuel
  induction fuel with
  | zero => intro i; exact Nat.le_refl i
  | succ fuel ih =>
    intro i
    rw [mentionLoop]
    split
    · split
      · exact Nat.le_trans (Nat.le_add_right i _) (ih _)
      · exact Nat.le_refl i
    · exact Nat.le_refl i

theorem emotion_snd_pos (s : List Nat) (h : (emotion s).1 ≠ []) :
    1 ≤ (emotion s).2 := by
  cases hS : strIndex s 41 with
  | none =>
    have he : emotion s = ([], 0) := by simp only [emotion, hS]
    rw [he] at h
    exact absurd rfl h
  | some i =>
    have he : emotion s =
        (if searchStrings supportedEmotions (sub s 1 i) <
              supportedEmotions.length ∧
            supportedEmotions.getD
              (searchStrings supportedEmotions (sub s 1 i)) [] =
              sub s 1 i then
          (sub s 1 i, searchStrings supportedEmotions (sub s 1 i) + 1)
        else ([], 0)) := by
      simp only [emotion, hS]
    rw [he] at h ⊢
    by_cases hc : searchStrings supportedEmotions (sub s 1 i) <
        supportedEmotions.length ∧
        supportedEmotions.getD
          (searchStrings supportedEmotions (sub s 1 i)) [] = sub s 1 i
    · rw [if_pos hc]
      exact Nat.succ_le_succ (Nat.zero_le _)
    · rw [if_neg hc] at h
      exact absurd rfl h

theorem mention_snd_pos (s : List Nat) (h : (mention s).1 ≠ []) :
    1 ≤ (mention s).2 := by
  rw [mention.eq_def] at h ⊢
  split at h
  · exact absurd rfl h
  · next hne =>
    rw [if_neg hne]
    exact mentionLoop_ge s s.length 1

theorem link_snd_pos (s : List Nat) (un : List Nat × Nat)
    (hl : link s = some un) (h : un.1 ≠ []) : 1 ≤ un.2 := by
  rw [link.eq_def] at hl
  split at hl
  · cases Option.some_inj.mp hl
    exact absurd rfl h
  · split at hl
    · cases Option.some_inj.mp hl
      exact absurd rfl h
    · split at hl
      · exact absurd hl (by simp)
      · split at hl
        · cases Option.some_inj.mp hl
          exact absurd rfl h
        · split at hl
          · cases Option.some_inj.mp hl
            exact List.length_pos.mpr h
          · cases Option.some_inj.mp hl
            exact absurd rfl h

theorem stepWidth_pos (msg : List Nat) (i w : Nat) (hi : i < msg.length)
    (hw : stepWidth msg i = some w) : 1 ≤ w := by
  have hne : msg.drop i ≠ [] := by
    rw [ne_eq, List.drop_eq_nil_iff_le]
    omega
  have hpos := decodeRuneInString_snd_pos _ hne
  simp only [stepWidth] at hw
  split at hw
  · cases Option.some_inj.mp hw
    split
    · next hhit => exact emotion_snd_pos _ hhit
    · exact hpos
  · split at hw
    · cases Option.some_inj.mp hw
      split
      · next hhit => exact mention_snd_pos _ hhit
      · exact hpos
    · split at hw
      · split at hw
        · split at hw
          · exact absurd hw (by simp)
          · next un heq =>
            cases Option.some_inj.mp hw
            split
            · next hhit => exact link_snd_pos _ un heq hhit
            · exact hpos
        · cases Option.some_inj.mp hw
          exact hpos
      · cases Option.some_inj.mp hw
        exact hpos

theorem scanLoop_succ_step (msg : List Nat) (fuel i : Nat)
    (ms es us : List (List Nat)) (hi : i < msg.length)
    (hgood : (decodeRuneInString (msg.drop i)).1 ≠ runeError) :
    (stepWidth msg i = none ∧
      scanLoop msg (fuel + 1) i ms es us = .error .panic) ∨
    (∃ w ms' es' us', stepWidth msg i = some w ∧
      scanLoop msg (fuel + 1) i ms es us =
        scanLoop msg fuel (i + w) ms' es' us') := by
  rw [scanLoop, if_pos hi]
  rw [if_neg hgood]
  by_cases h40 : (decodeRuneInString (msg.drop i)).1 = 40
  · rw [if_pos h40]
    right
    by_cases hhit : (emotion (msg.drop i)).1 ≠ []
    · rw [if_pos hhit]
      exact ⟨(emotion (msg.drop i)).2, ms,
        es ++ [(emotion (msg.drop i)).1], us,
        by simp only [stepWidth]; rw [if_pos h40, if_pos hhit], rfl⟩
    · rw [if_neg hhit]
      exact ⟨(decodeRuneInString (msg.drop i)).2, ms, es, us,
        by simp only [stepWidth]; rw [if_pos h40, if_neg hhit], rfl⟩
  · rw [if_neg h40]
    by_cases h64 : (decodeRuneInString (msg.drop i)).1 = 64
    · rw [if_pos h64]
      right
      by_cases hhit : (mention (msg.drop i)).1 ≠ []
      · rw [if_pos hhit]
        exact ⟨(mention (msg.drop i)).2, ms ++ [(mention (msg.drop i)).1],
          es, us,
          by simp only [stepWidth]
             rw [if_neg h40, if_pos h64, if_pos hhit], rfl⟩
      · rw [if_neg hhit]
        exact ⟨(decodeRuneInString (msg.drop i)).2, ms, es, us,
          by simp only [stepWidth]
             rw [if_neg h40, if_pos h64, if_neg hhit], rfl⟩
    · rw [if_neg h64]
      by_cases hH : (decodeRuneInString (msg.drop i)).1 = 72 ∨
          (decodeRuneInString (msg.drop i)).1 = 104
      · rw [if_pos hH]
        by_cases hstart : linkStart msg i = true
        · rw [if_pos hstart]
          cases hlink : link (msg.drop i) with
          | none =>
            left
            refine ⟨?_, rfl⟩
            simp only [stepWidth]
            rw [if_neg h40, if_neg h64, if_pos hH, if_pos hstart, hlink]
          | some un =>
            right
            by_cases hhit : un.1 ≠ []
            · refine ⟨un.2, ms, es, us ++ [un.1], ?_, ?_⟩
              · simp only [stepWidth]
                rw [if_neg h40, if_neg h64, if_pos hH, if_pos hstart, hlink]
                show some (if un.1 ≠ [] then un.2
                  else (decodeRuneInString (msg.drop i)).2) = _
                rw [if_pos hhit]
              · show (if un.1 ≠ [] then
                    scanLoop msg fuel (i + un.2) ms es (us ++ [un.1])
                  else scanLoop msg fuel
                    (i + (decodeRuneInString (msg.drop i)).2) ms es us) = _
                rw [if_pos hhit]
            · refine ⟨(decodeRuneInString (msg.drop i)).2, ms, es, us, ?_, ?_⟩
              · simp only [stepWidth]
                rw [if_neg h40, if_neg h64, if_pos hH, if_pos hstart, hlink]
                show some (if un.1 ≠ [] then un.2
                  else (decodeRuneInString (msg.drop i)).2) = _
                rw [if_neg hhit]
              · show (if un.1 ≠ [] then
                    scanLoop msg fuel (i + un.2) ms es (us ++ [un.1])
                  else scanLoop msg fuel
                    (i + (decodeRuneInString (msg.drop i)).2) ms es us) = _
                rw [if_neg hhit]
        · rw [if_neg hstart]
          right
          exact ⟨(decodeRuneInString (msg.drop i)).2, ms, es, us,
            by simp only [stepWidth]
               rw [if_neg h40, if_neg h64, if_pos hH, if_neg hstart], rfl⟩
      · rw [if_neg hH]
        right
        exact ⟨(decodeRuneInString (msg.drop i)).2, ms, es, us,
          by simp only [stepWidth]
             rw [if_neg h40, if_neg h64, if_neg hH], rfl⟩

theorem scanLoop_ok_of_ge (msg : List Nat) (fuel i : Nat)
    (ms es us : List (List Nat)) (hge : msg.length ≤ i) :
    scanLoop msg fuel i ms es us = .ok (ms, es, us) := by
  cases fuel with
  | zero => rw [scanLoop, if_neg (by omega)]
  | succ fuel => rw [scanLoop, if_neg (by omega)]

theorem scanLoop_decodeErr_iff (msg : List Nat) :
    ∀ fuel i ms es us p, msg.length - i ≤ fuel →
    (scanLoop msg fuel i ms es us = .error (.decodeErr p) ↔
      (Steps msg i p ∧ p < msg.length ∧
        (decodeRuneInString (msg.drop p)).1 = runeError)) := by
  intro fuel
  induction fuel with
  | zero =>
    intro i ms es us p hfuel
    rw [scanLoop_ok_of_ge msg 0 i ms es us (by omega)]
    constructor
    · intro hcontra
      exact absurd hcontra (by simp)
    · rintro ⟨hst, hp, _⟩
      cases hst with
      | refl => omega
      | head hi' _ _ _ => omega
  | succ fuel ih =>
    intro i ms es us p hfuel
    by_cases hi : i < msg.length
    · by_cases hbad : (decodeRuneInString (msg.drop i)).1 = runeError
      · have herr : scanLoop msg (fuel + 1) i ms es us =
            .error (.decodeErr i) := by
          rw [scanLoop, if_pos hi]
          rw [if_pos hbad]
        rw [herr]
        constructor
        · intro h
          simp only [Except.error.injEq, PErr.decodeErr.injEq] at h
          subst h
          exact ⟨Steps.refl i, hi, hbad⟩
        · rintro ⟨hst, hp, hbadp⟩
          cases hst with
          | refl => rfl
          | head hi' hgood' _ _ => exact absurd hbad hgood'
      · rcases scanLoop_succ_step msg fuel i ms es us hi hbad with
          ⟨hsw, heq⟩ | ⟨w, ms', es', us', hsw, heq⟩
        · rw [heq]
          constructor
          · intro h
            exact absurd (Except.error.inj h) (by simp)
          · rintro ⟨hst, hp, hbadp⟩
            cases hst with
            | refl => exact absurd hbadp hbad
            | head hi' hgood' hsw' hrest =>
              rw [hsw'] at hsw
              exact absurd hsw (by simp)
        · have hw1 : 1 ≤ w := stepWidth_pos msg i w hi hsw
          rw [heq, ih (i + w) ms' es' us' p (by omega)]
          constructor
          · rintro ⟨hst, hp, hbadp⟩
            exact ⟨Steps.head hi hbad hsw hst, hp, hbadp⟩
          · rintro ⟨hst, hp, hbadp⟩
            cases hst with
            | refl => exact absurd hbadp hbad
            | head hi' hgood' hsw' hrest =>
              rw [hsw] at hsw'
              cases Option.some_inj.mp hsw'
              exact ⟨hrest, hp, hbadp⟩
    · rw [scanLoop_ok_of_ge msg (fuel + 1) i ms es us (by omega)]
      constructor
      · intro hcontra
        exact absurd hcontra (by simp)
      · rintro ⟨hst, hp, _⟩
        cases hst with
        | refl => omega
        | head hi' _ _ _ => omega

theorem runLenF_nil (fuel : Nat) : runLenF fuel [] = 0 := by
  cases fuel <;> rfl

theorem mentionLoop_eq_runLenF (s : List Nat) :
    ∀ fuel i, s.length - i ≤ fuel →
      mentionLoop s fuel i = i + runLenF fuel (s.drop i) := by
  intro fuel
  induction fuel with
  | zero =>
    intro i hf
    have hnil : s.drop i = [] := List.drop_eq_nil_of_le (by omega)
    rw [hnil]
    rfl
  | succ fuel ih =>
    intro i hf
    by_cases hi : i < s.length
    · have hne : s.drop i ≠ [] := by
        rw [ne_eq, List.drop_eq_nil_iff_le]
        omega
      have hpos := decodeRuneInString_snd_pos _ hne
      rw [mentionLoop, if_pos hi]
      by_cases hw : wordChar (decodeRuneInString (s.drop i)).1 = true
      · rw [if_pos hw, runLenF,
          if_neg (show ¬((s.drop i).isEmpty = true) by
            simp [List.isEmpty_iff, hne]),
          if_pos hw,
          ih (i + (decodeRuneInString (s.drop i)).2) (by omega),
          List.drop_drop]
        omega
      · rw [if_neg hw, runLenF,
          if_neg (show ¬((s.drop i).isEmpty = true) by
            simp [List.isEmpty_iff, hne]),
          if_neg hw]
        rfl
    · rw [mentionLoop, if_neg hi]
      have hnil : s.drop i = [] := List.drop_eq_nil_of_le (by omega)
      rw [hnil, runLenF_nil]
      rfl

theorem runLenF_stable : ∀ f1 l f2, List.length l ≤ f1 →
    List.length l ≤ f2 → runLenF f1 l = runLenF f2 l := by
  intro f1
  induction f1 with
  | zero =>
    intro l f2 h1 h2
    have hnil : l = [] := List.eq_nil_of_length_eq_zero (by omega)
    subst hnil
    rw [runLenF_nil, runLenF_nil]
  | succ f1 ih =>
    intro l f2 h1 h2
    rcases l with _ | ⟨b, tl⟩
    · rw [runLenF_nil, runLenF_nil]
    · cases f2 with
      | zero =>
        simp at h2
      | succ f2 =>
        have hne : (b :: tl : List Nat) ≠ [] := by simp
        have hpos := decodeRuneInString_snd_pos _ hne
        have hle := decodeRuneInString_snd_le (b :: tl)
        rw [runLenF, runLenF,
          if_neg (show ¬(((b :: tl) : List Nat).isEmpty = true) by simp),
          if_neg (show ¬(((b :: tl) : List Nat).isEmpty = true) by simp)]
        by_cases hw : wordChar (decodeRuneInString (b :: tl)).1 = true
        · rw [if_pos hw, if_pos hw,
            ih ((b :: tl).drop (decodeRuneInString (b :: tl)).2) f2
              (by simp only [List.length_drop]; omega)
              (by simp only [List.length_drop]; omega)]
        · rw [if_neg hw, if_neg hw]

theorem runLenF_stop : ∀ fuel l, List.length l ≤ fuel →
    List.length l ≤ runLenF fuel l ∨
    wordChar (decodeRuneInString (l.drop (runLenF fuel l))).1 = false := by
  intro fuel
  induction fuel with
  | zero =>
    intro l h
    left
    have hnil : l = [] := List.eq_nil_of_length_eq_zero (by omega)
    subst hnil
    rw [runLenF_nil]
    exact h
  | succ fuel ih =>
    intro l h
    rcases l with _ | ⟨b, tl⟩
    · left
      rw [runLenF_nil]
      exact Nat.le_refl 0
    · have hne : (b :: tl : List Nat) ≠ [] := by simp
      have hpos := decodeRuneInString_snd_pos _ hne
      have hle := decodeRuneInString_snd_le (b :: tl)
      rw [runLenF,
        if_neg (show ¬(((b :: tl) : List Nat).isEmpty = true) by simp)]
      by_cases hw : wordChar (decodeRuneInString (b :: tl)).1 = true
      · rw [if_pos hw]
        rcases ih ((b :: tl).drop (decodeRuneInString (b :: tl)).2)
            (by simp only [List.length_drop]; omega) with h1 | h1
        · left
          rw [List.length_drop] at h1
          omega
        · right
          rw [List.drop_drop] at h1
          exact h1
      · rw [if_neg hw]
        right
        rw [List.drop_zero]
        simpa using hw

theorem decodeStrList_encode (l : List (List Nat)) :
    decodeStrList (.arr (l.map (fun s => .str (coerceUtf8 s)))) =
      some (l.map coerceUtf8) := by
  induction l with
  | nil => rfl
  | cons a tl ih =>
    simp only [decodeStrList] at ih ⊢
    simp only [List.map_cons, List.mapM_cons, ih]
    rfl

theorem decodeStrList_encode_cons (a : List Nat) (tl : List (List Nat)) :
    decodeStrList (.arr (Json.str (coerceUtf8 a) ::
        tl.map (fun s => .str (coerceUtf8 s)))) =
      some (coerceUtf8 a :: tl.map coerceUtf8) := by
  have h := decodeStrList_encode (a :: tl)
  rw [List.map_cons, List.map_cons] at h
  exact h

theorem decodeLink_encode (l : Link) :
    decodeLink (encodeLink l) = some (coerceLink l) := by
  simp [decodeLink, encodeLink, coerceLink, getField,
    show asciiBytes "url" ≠ asciiBytes "title" by decide]

theorem decodeLinks_encode (ls : List Link) :
    (ls.map encodeLink).mapM decodeLink = some (ls.map coerceLink) := by
  induction ls with
  | nil => rfl
  | cons a tl ih =>
    simp only [List.map_cons, List.mapM_cons, ih, decodeLink_encode]
    rfl

theorem decodeLinks_encode_cons (a : Link) (tl : List Link) :
    List.mapM decodeLink (encodeLink a :: tl.map encodeLink) =
      some (coerceLink a :: tl.map coerceLink) := by
  have h := decodeLinks_encode (a :: tl)
  rw [List.map_cons, List.map_cons] at h
  exact h

theorem mapM_loop_decodeLinks (tl : List Link) : ∀ acc : List Link,
    List.mapM.loop decodeLink (tl.map encodeLink) acc =
      some (acc.reverse ++ tl.map coerceLink) := by
  induction tl with
  | nil =>
    intro acc
    simp [List.mapM.loop]
  | cons a tl ih =>
    intro acc
    simp [List.mapM.loop, decodeLink_encode, ih]

theorem mapM_loop_decodeLinks_cons (a : Link) (tl : List Link) :
    List.mapM.loop decodeLink (encodeLink a :: tl.map encodeLink) [] =
      some (coerceLink a :: tl.map coerceLink) := by
  have h := mapM_loop_decodeLinks (a :: tl) []
  rw [List.map_cons] at h
  simpa using h

theorem decodeMsgInfo_encodeMsgInfo (mi : MsgInfo) :
    decodeMsgInfo (encodeMsgInfo mi) = some (coerceMsgInfo mi) := by
  obtain ⟨ms, es, ls⟩ := mi
  cases ms <;> cases es <;> cases ls <;>
    simp [encodeMsgInfo, encodeFields, decodeMsgInfo, coerceMsgInfo,
      getField, decodeStrList_encode_cons, decodeLinks_encode_cons,
      mapM_loop_decodeLinks_cons,
      show asciiBytes "mentions" ≠ asciiBytes "emotions" by decide,
      show asciiBytes "mentions" ≠ asciiBytes "links" by decide,
      show asciiBytes "emotions" ≠ asciiBytes "mentions" by decide,
      show asciiBytes "emotions" ≠ asciiBytes "links" by decide,
      show asciiBytes "links" ≠ asciiBytes "mentions" by decide,
      show asciiBytes "links" ≠ asciiBytes "emotions" by decide]

theorem coerceUtf8F_of_valid : ∀ fuel l, validUtf8F fuel l = true →
    coerceUtf8F fuel l = l := by
  intro fuel
  induction fuel with
  | zero =>
    intro l h
    simp only [validUtf8F, List.isEmpty_iff] at h
    rw [h]
    rfl
  | succ fuel ih =>
    intro l h
    rw [validUtf8F] at h
    rw [coerceUtf8F]
    by_cases hemp : l.isEmpty = true
    · rw [if_pos hemp]
      rw [List.isEmpty_iff] at hemp
      exact hemp.symm
    · rw [if_neg hemp] at h ⊢
      by_cases hbad : (decodeRuneInString l).1 = runeError ∧
          (decodeRuneInString l).2 ≤ 1
      · rw [if_pos hbad] at h
        exact absurd h (by simp)
      · rw [if_neg hbad] at h ⊢
        rw [ih _ h]
        exact List.take_append_drop _ l

theorem coerceUtf8_of_valid (l : List Nat) (h : validUtf8 l = true) :
    coerceUtf8 l = l :=
  coerceUtf8F_of_valid l.length l h

theorem map_eq_self_of_mem {α : Type} (f : α → α) :
    ∀ l : List α, (∀ x ∈ l, f x = x) → l.map f = l := by
  intro l h
  induction l with
  | nil => rfl
  | cons a tl ih =>
    rw [List.map_cons, h a (by simp), ih (fun x hx => h x (by simp [hx]))]

theorem encodeFields_presence (mi : MsgInfo) :
    ((getField (encodeFields mi) (asciiBytes "mentions")).isSome ↔
      mi.mentions ≠ []) ∧
    ((getField (encodeFields mi) (asciiBytes "emotions")).isSome ↔
      mi.emotions ≠ []) ∧
    ((getField (encodeFields mi) (asciiBytes "links")).isSome ↔
      mi.links ≠ []) := by
  obtain ⟨ms, es, ls⟩ := mi
  cases ms <;> cases es <;> cases ls <;>
    simp [encodeFields, getField,
      show asciiBytes "mentions" ≠ asciiBytes "emotions" by decide,
      show asciiBytes "mentions" ≠ asciiBytes "links" by decide,
      show asciiBytes "emotions" ≠ asciiBytes "mentions" by decide,
      show asciiBytes "emotions" ≠ asciiBytes "links" by decide,
      show asciiBytes "links" ≠ asciiBytes "mentions" by decide,
      show asciiBytes "links" ≠ asciiBytes "emotions" by decide]

/-! ## The claims -/

/-- **C1** (code bug).  The claim says that on a vocabulary hit `emotion`
returns a consumed width spanning through the closing parenthesis.  The
source instead executes `return e, i + 1` after `i` has been reassigned by
`sort.SearchStrings`, so the width is the vocabulary index plus one: on
`"(atlassian)"` the closing parenthesis sits at byte 10 (a spanning width
would be 11), but the returned width is `0 + 1 = 1`, and the scanner
re-enters the interior of the matched token. -/
theorem emotion_width_is_search_index :
    emotion (asciiBytes "(atlassian)") = (asciiBytes "atlassian", 1) ∧
    strIndex (asciiBytes "(atlassian)") 41 = some 10 ∧
    emotion (asciiBytes "(boom) x") = (asciiBytes "boom", 3) ∧
    emotion (asciiBytes "(nope) x") = ([], 0) := by
  decide

/-- **C2** (code bug).  The claim says the scheme and `://` checks of
`link` never read past the end for inputs of length `≥ 7`.  On the 7-byte
input `"https:/"` the scheme extends to `https` (`pl = 5`) and the source
evaluates `s[5:8]`, out of range — a panic (modelled `none`) that aborts
the whole `Parse` of any message reaching it.  The under-7 half of the
claim does hold (`"http:/"` gives no match and zero consumption). -/
theorem link_https_slice_panic :
    link (asciiBytes "https:/") = none ∧
    parse (fun _ => .error ()) [] (asciiBytes "see https:/") =
      .error .panic ∧
    link (asciiBytes "http:/") = some ([], 0) := by
  decide

/-- **C7** (confirmed).  With the first `)` of `s` at byte `i`, `emotion`
recognizes a tag iff the substring `s[1:i]` strictly between the
parentheses is byte-for-byte equal to one of the seven vocabulary words,
and the recognized tag is that substring; the binary search over the
sorted vocabulary decides exactly this membership. -/
theorem emotion_hit_iff_vocab (s : List Nat) (i : Nat)
    (hClose : strIndex s 41 = some i) :
    ((emotion s).1 ≠ [] ↔ sub s 1 i ∈ supportedEmotions) ∧
    ((emotion s).1 ≠ [] → (emotion s).1 = sub s 1 i) := by
  have hem : emotion s =
      (if searchStrings supportedEmotions (sub s 1 i) <
            supportedEmotions.length ∧
          supportedEmotions.getD
            (searchStrings supportedEmotions (sub s 1 i)) [] = sub s 1 i
        then (sub s 1 i, searchStrings supportedEmotions (sub s 1 i) + 1)
        else ([], 0)) := by
    simp only [emotion, hClose]
  by_cases h : searchStrings supportedEmotions (sub s 1 i) <
      supportedEmotions.length ∧
      supportedEmotions.getD
        (searchStrings supportedEmotions (sub s 1 i)) [] = sub s 1 i
  · rw [hem, if_pos h]
    have hmem : sub s 1 i ∈ supportedEmotions := by
      rw [← h.2, List.getD_eq_getElem _ _ h.1]
      exact List.getElem_mem h.1
    have hne : sub s 1 i ≠ [] := supportedEmotions_ne_nil _ hmem
    exact ⟨⟨fun _ => hmem, fun _ => hne⟩, fun _ => rfl⟩
  · rw [hem, if_neg h]
    refine ⟨⟨fun hx => absurd rfl hx, fun hmem => ?_⟩,
      fun hx => absurd rfl hx⟩
    exfalso
    apply h
    simp only [supportedEmotions, List.mem_cons, List.not_mem_nil,
      or_false] at hmem
    rcases hmem with h1 | h1 | h1 | h1 | h1 | h1 | h1 <;> rw [h1] <;> decide

/-- Witness for `emotion_hit_iff_vocab` at `"(heart)x"`: the first `)`
is at byte 6 and `"heart"` is in the vocabulary, so the tag is
recognized; at `"(Atlassian)"` membership fails, so it is not. -/
theorem emotion_hit_iff_vocab_witness :
    strIndex (asciiBytes "(heart)x") 41 = some 6 ∧
    ((emotion (asciiBytes "(heart)x")).1 ≠ [] ↔
      sub (asciiBytes "(heart)x") 1 6 ∈ supportedEmotions) ∧
    strIndex (asciiBytes "(Atlassian)") 41 = some 10 ∧
    ((emotion (asciiBytes "(Atlassian)")).1 ≠ [] ↔
      sub (asciiBytes "(Atlassian)") 1 10 ∈ supportedEmotions) :=
  ⟨by decide, (emotion_hit_iff_vocab _ 6 (by decide)).1, by decide,
    (emotion_hit_iff_vocab _ 10 (by decide)).1⟩

/-- **C5** (confirmed).  On a fetched markup stream, after any prefix of
neutral tokens (no error token, no `title`/`body` start tag, no `head` end
tag — a `head` start tag in particular is neutral, and the prefix need not
contain one): a `title` start tag immediately followed by a text token
returns that text; a `body` start tag or a `head` end tag returns the
empty title without error; an error token, or the end of the stream with
no trigger, fails with the markup error. -/
theorem pagetTitle_triggers (pre : List HTok)
    (h : pre.all neutralTok = true) :
    (∀ t rest, pagetTitle
        (pre ++ .startTag (asciiBytes "title") :: .text t :: rest) =
      .ok t) ∧
    (∀ rest, pagetTitle (pre ++ .startTag (asciiBytes "body") :: rest) =
      .ok []) ∧
    (∀ rest, pagetTitle (pre ++ .endTag (asciiBytes "head") :: rest) =
      .ok []) ∧
    (∀ rest, pagetTitle (pre ++ .err :: rest) = .error ()) ∧
    pagetTitle pre = .error () := by
  refine ⟨fun t rest => ?_, fun rest => ?_, fun rest => ?_,
    fun rest => ?_, ?_⟩
  · rw [pagetTitle_neutral_append pre h, pagetTitle.eq_def]
    simp
  · rw [pagetTitle_neutral_append pre h, pagetTitle.eq_def]
    simp [show asciiBytes "body" ≠ asciiBytes "title" by decide]
  · rw [pagetTitle_neutral_append pre h, pagetTitle.eq_def]
    simp
  · rw [pagetTitle_neutral_append pre h]
    rfl
  · have h0 := pagetTitle_neutral_append pre h []
    rw [List.append_nil] at h0
    rw [h0]
    rfl

/-- Witness for `pagetTitle_triggers`: a prefix containing no `head` start
tag at all (`<html>` only), exercising the `title`-before-`head` case and
the other triggers. -/
theorem pagetTitle_triggers_witness :
    List.all [HTok.startTag (asciiBytes "html")] neutralTok = true ∧
    pagetTitle ([HTok.startTag (asciiBytes "html")] ++
      .startTag (asciiBytes "title") :: .text (asciiBytes "T") :: []) =
      .ok (asciiBytes "T") ∧
    pagetTitle ([HTok.startTag (asciiBytes "html")] ++
      .startTag (asciiBytes "body") :: []) = .ok [] ∧
    pagetTitle ([HTok.startTag (asciiBytes "html")] ++
      .endTag (asciiBytes "head") :: []) = .ok [] ∧
    pagetTitle ([HTok.startTag (asciiBytes "html")] ++ .err :: []) =
      .error () ∧
    pagetTitle [HTok.startTag (asciiBytes "html")] = .error () :=
  ⟨by decide,
    (pagetTitle_triggers _ (by decide)).1 (asciiBytes "T") [],
    (pagetTitle_triggers _ (by decide)).2.1 [],
    (pagetTitle_triggers _ (by decide)).2.2.1 [],
    (pagetTitle_triggers _ (by decide)).2.2.2.1 [],
    (pagetTitle_triggers _ (by decide)).2.2.2.2⟩

/-- **C4** (confirmed).  The enrichment stage returns no links for an
empty URL list; otherwise, for any completion order `sched` of the
concurrent fetches (any permutation of the URL list), it returns exactly
one `Link` per discovered URL — counted with multiplicity — whose `url`
field is that URL and whose title is the fetched title, or empty when the
fetch fails; and whenever the scan succeeds, `parse` succeeds for every
title oracle, so enrichment failures never fail the parse. -/
theorem urlsToLinks_one_per_url
    (titles : List Nat → Except Unit (List Nat))
    (sched urls : List (List Nat)) (hperm : sched.Perm urls) :
    urlsToLinks titles sched [] = [] ∧
    (∀ u, (urlsToLinks titles sched urls).countP
        (fun l => decide (l.url = u)) =
      urls.countP (fun v => decide (v = u))) ∧
    (∀ l ∈ urlsToLinks titles sched urls,
      l.title = match titles l.url with
        | .ok t => t
        | .error _ => []) ∧
    (∀ msg r, scan msg = .ok r →
      parse titles sched msg =
        .ok ⟨r.1, r.2.1, urlsToLinks titles sched r.2.2⟩) := by
  refine ⟨rfl, ?_, ?_, ?_⟩
  · intro u
    match urls, hperm with
    | [], hperm =>
      rw [List.Perm.eq_nil hperm]
      rfl
    | [u0], hperm =>
      simp [urlsToLinks, enrich, List.countP_cons]
    | u0 :: u1 :: tl, hperm =>
      show (sched.map (enrich titles)).countP _ = _
      rw [List.countP_map]
      exact hperm.countP_eq _
  · intro l hl
    match urls, hperm, hl with
    | [u0], hperm, hl =>
      simp only [urlsToLinks, List.mem_singleton] at hl
      subst hl
      rfl
    | u0 :: u1 :: tl, hperm, hl =>
      have hl' : l ∈ sched.map (enrich titles) := hl
      obtain ⟨v, _, hv⟩ := List.mem_map.mp hl'
      subst hv
      rfl
  · intro msg r hscan
    simp only [parse, hscan, Except.map]

/-- Witness for `urlsToLinks_one_per_url`: two URLs delivered in reversed
completion order still give one link per URL, each carrying its oracle
title (here the oracle fails on `"http://b"`, which surfaces as an empty
title). -/
theorem urlsToLinks_one_per_url_witness :
    List.Perm [asciiBytes "http://b", asciiBytes "http://a"]
      [asciiBytes "http://a", asciiBytes "http://b"] ∧
    (urlsToLinks
        (fun u => if u = asciiBytes "http://a" then .ok (asciiBytes "A")
          else .error ())
        [asciiBytes "http://b", asciiBytes "http://a"]
        [asciiBytes "http://a", asciiBytes "http://b"]).countP
      (fun l => decide (l.url = asciiBytes "http://a")) =
      ([asciiBytes "http://a", asciiBytes "http://b"]).countP
        (fun v => decide (v = asciiBytes "http://a")) :=
  ⟨by decide,
    (urlsToLinks_one_per_url _ _ _ (by decide)).2.1 (asciiBytes "http://a")⟩

/-- **C9** (corrected): counterexample.  The message `"http://a.com/\xFF"`
parses successfully — `spaceIndex` keeps the `0xFF` byte in the candidate,
the URL-syntax check accepts it, and the scanner skips the token whole, so
the single discovered link carries the raw invalid byte.  `json.Marshal`'s
string encoder then coerces the invalid byte to U+FFFD, so decoding the
serialized result yields a *different* `MsgInfo` (the URL ends in
`EF BF BD` instead of `FF`): the round trip `decode(serialize(Parse(m))) ==
Parse(m)` fails on this message with exactly one discovered link. -/
theorem parseJSON_roundtrip_counterexample :
    parse (fun _ => .error ()) [] (asciiBytes "http://a.com/" ++ [0xFF]) =
      .ok (MsgInfo.mk [] []
        [Link.mk (asciiBytes "http://a.com/" ++ [0xFF]) []]) ∧
    (MsgInfo.mk [] []
      [Link.mk (asciiBytes "http://a.com/" ++ [0xFF]) []]).links.length ≤
      1 ∧
    decodeMsgInfo (encodeMsgInfo (MsgInfo.mk [] []
        [Link.mk (asciiBytes "http://a.com/" ++ [0xFF]) []])) =
      some (MsgInfo.mk [] []
        [Link.mk (asciiBytes "http://a.com/" ++ [0xEF, 0xBF, 0xBD]) []]) ∧
    MsgInfo.mk [] []
        [Link.mk (asciiBytes "http://a.com/" ++ [0xEF, 0xBF, 0xBD]) []] ≠
      MsgInfo.mk [] []
        [Link.mk (asciiBytes "http://a.com/" ++ [0xFF]) []] := by
  decide

/-- **C9** (amended).  For a message whose parse succeeds with at most one
discovered link *and whose parse result contains only well-formed UTF-8
strings*, decoding the serialized parse result gives back exactly the
parse result (all fields and orders preserved) — in general the round
trip returns `coerceMsgInfo` of it, i.e. is exact up to `json.Marshal`'s
replacement of invalid UTF-8 bytes by U+FFFD; and in the serialized
object each of the three lists is present exactly when it is nonempty —
an empty list is omitted, never emitted as a `null` or an explicit empty
list.  (The model's deterministic enrichment makes the round trip hold
for any number of links; the claim's `≤ 1` bound, under which the Go
channel order is deterministic too, is kept as stated.) -/
theorem parseJSON_roundtrip (titles : List Nat → Except Unit (List Nat))
    (sched : List (List Nat)) (msg : List Nat) (mi : MsgInfo)
    (hok : parse titles sched msg = .ok mi) (hlink : mi.links.length ≤ 1)
    (hms : ∀ x ∈ mi.mentions, validUtf8 x = true)
    (hes : ∀ x ∈ mi.emotions, validUtf8 x = true)
    (hls : ∀ l ∈ mi.links,
      validUtf8 l.url = true ∧ validUtf8 l.title = true) :
    decodeMsgInfo (encodeMsgInfo mi) = some mi ∧
    ((getField (encodeFields mi) (asciiBytes "mentions")).isSome ↔
      mi.mentions ≠ []) ∧
    ((getField (encodeFields mi) (asciiBytes "emotions")).isSome ↔
      mi.emotions ≠ []) ∧
    ((getField (encodeFields mi) (asciiBytes "links")).isSome ↔
      mi.links ≠ []) := by
  refine ⟨?_, encodeFields_presence mi⟩
  rw [decodeMsgInfo_encodeMsgInfo mi]
  obtain ⟨ms, es, ls⟩ := mi
  have h1 : ms.map coerceUtf8 = ms :=
    map_eq_self_of_mem _ ms (fun x hx => coerceUtf8_of_valid x (hms x hx))
  have h2 : es.map coerceUtf8 = es :=
    map_eq_self_of_mem _ es (fun x hx => coerceUtf8_of_valid x (hes x hx))
  have h3 : ls.map coerceLink = ls := by
    refine map_eq_self_of_mem _ ls (fun l hl => ?_)
    obtain ⟨u, t⟩ := l
    have hv := hls ⟨u, t⟩ hl
    simp only [coerceLink]
    rw [coerceUtf8_of_valid u hv.1, coerceUtf8_of_valid t hv.2]
  simp only [coerceMsgInfo]
  rw [h1, h2, h3]

/-- Witness for `parseJSON_roundtrip`: `"Hi, @bob!"` parses to a single
(well-formed ASCII) mention and no links; serializing and decoding
returns it unchanged, and only the `mentions` field is present. -/
theorem parseJSON_roundtrip_witness :
    (parse (fun _ => .error ()) [] (asciiBytes "Hi, @bob!") =
        .ok (MsgInfo.mk [asciiBytes "bob"] [] []) ∧
      (MsgInfo.mk [asciiBytes "bob"] [] []).links.length ≤ 1 ∧
      (∀ x ∈ (MsgInfo.mk [asciiBytes "bob"] [] []).mentions,
        validUtf8 x = true) ∧
      (∀ x ∈ (MsgInfo.mk [asciiBytes "bob"] [] []).emotions,
        validUtf8 x = true) ∧
      (∀ l ∈ (MsgInfo.mk [asciiBytes "bob"] [] []).links,
        validUtf8 l.url = true ∧ validUtf8 l.title = true)) ∧
    decodeMsgInfo (encodeMsgInfo (MsgInfo.mk [asciiBytes "bob"] [] [])) =
      some (MsgInfo.mk [asciiBytes "bob"] [] []) :=
  ⟨⟨by decide, by decide, by decide, by decide, by decide⟩,
    (parseJSON_roundtrip (fun _ => .error ()) [] (asciiBytes "Hi, @bob!")
      (MsgInfo.mk [asciiBytes "bob"] [] []) (by decide) (by decide)
      (by decide) (by decide) (by decide)).1⟩

/-- **C10** (confirmed).  A `title` start tag that is not immediately
followed by a text token (e.g. an empty `<title></title>`) does not make
`pagetTitle` return: the non-text token is consumed and the result is that
of the remaining stream. -/
theorem pagetTitle_title_no_text (pre : List HTok) (tok : HTok)
    (rest : List HTok) (h : pre.all neutralTok = true)
    (htok : tok.isText = false) :
    pagetTitle (pre ++ .startTag (asciiBytes "title") :: tok :: rest) =
      pagetTitle rest := by
  rw [pagetTitle_neutral_append pre h]
  cases tok <;> simp [pagetTitle, HTok.isText] at htok ⊢

/-- Witness for `pagetTitle_title_no_text`: an empty `<title></title>`
followed by `<body>` yields the empty title. -/
theorem pagetTitle_title_no_text_witness :
    List.all [] neutralTok = true ∧
    HTok.isText (.endTag (asciiBytes "title")) = false ∧
    pagetTitle ([] ++ .startTag (asciiBytes "title") ::
        .endTag (asciiBytes "title") :: [.startTag (asciiBytes "body")]) =
      pagetTitle [.startTag (asciiBytes "body")] ∧
    pagetTitle [HTok.startTag (asciiBytes "body")] = .ok [] :=
  ⟨by decide, by decide,
    pagetTitle_title_no_text [] _ _ (by decide) (by decide), by decide⟩

/-- **C3** (corrected): counterexample.  The bytes `EF BF BD` are the
valid UTF-8 encoding of U+FFFD (Go's decoder returns it with size 3, and
the well-formedness check `validUtf8` accepts the bytes), yet `Parse`
fails with a decoding error on this well-formed message, because the
source compares only the decoded rune against `utf8.RuneError`. -/
theorem parse_rejects_encoded_replacement :
    validUtf8 [0xEF, 0xBF, 0xBD] = true ∧
    decodeRuneInString [0xEF, 0xBF, 0xBD] = (runeError, 3) ∧
    parse (fun _ => .error ()) [] [0xEF, 0xBF, 0xBD] =
      .error (.decodeErr 0) := by
  decide

/-- **C3** (amended).  `Parse` fails with a decoding error at position `p`
iff the scanner actually decodes at `p` (`p` is reached by the scan steps)
and the decode yields `utf8.RuneError` — because the bytes there are
invalid, or because they validly encode U+FFFD itself.  On such failure
the result is only the error and no `MsgInfo` at all (structurally, the
`Except` carries no payload), and a parse that never decodes a
`RuneError` never returns a decoding error. -/
theorem parse_decodeErr_iff (titles : List Nat → Except Unit (List Nat))
    (sched : List (List Nat)) (msg : List Nat) (p : Nat) :
    parse titles sched msg = .error (.decodeErr p) ↔
      (Steps msg 0 p ∧ p < msg.length ∧
        (decodeRuneInString (msg.drop p)).1 = runeError) := by
  rw [← scanLoop_decodeErr_iff msg msg.length 0 [] [] [] p (by omega)]
  show parse titles sched msg = _ ↔ scan msg = _
  unfold parse
  cases hs : scan msg with
  | ok a => simp [hs, Except.map]
  | error e => simp [hs, Except.map]

/-- **C6** (confirmed).  A candidate link at a position `i > 0` whose
immediately preceding code point is a Unicode letter or digit is never
extracted: the scan step at `i` adds no URL and advances by exactly the
decoded rune's width.  Concretely, `"xhttp://a.com"` yields no link,
while the same candidate preceded by a non-letter, non-digit character
(`" http://a.com"`) or at the start of the text (`"http://a.com"`) is
extracted. -/
theorem link_never_mid_word :
    (∀ msg i fuel ms es us, 0 < i → i < msg.length →
      ((decodeRuneInString (msg.drop i)).1 = 72 ∨
        (decodeRuneInString (msg.drop i)).1 = 104) →
      (isLetter (decodeLastRune (msg.take i)).1 = true ∨
        isDigit (decodeLastRune (msg.take i)).1 = true) →
      scanLoop msg (fuel + 1) i ms es us =
        scanLoop msg fuel (i + (decodeRuneInString (msg.drop i)).2)
          ms es us) ∧
    scan (asciiBytes "xhttp://a.com") = .ok ([], [], []) ∧
    scan (asciiBytes " http://a.com") =
      .ok ([], [], [asciiBytes "http://a.com"]) ∧
    scan (asciiBytes "http://a.com") =
      .ok ([], [], [asciiBytes "http://a.com"]) := by
  refine ⟨?_, by decide, by decide, by decide⟩
  intro msg i fuel ms es us hi0 hi hH hld
  have hstart : linkStart msg i = false := by
    simp only [linkStart, if_pos hi0]
    rcases hld with h | h <;> simp [h]
  have hgood : ¬((decodeRuneInString (msg.drop i)).1 = runeError) := by
    rcases hH with h | h <;> rw [h] <;> decide
  have h40 : ¬((decodeRuneInString (msg.drop i)).1 = 40) := by
    rcases hH with h | h <;> rw [h] <;> decide
  have h64 : ¬((decodeRuneInString (msg.drop i)).1 = 64) := by
    rcases hH with h | h <;> rw [h] <;> decide
  rw [scanLoop, if_pos hi, if_neg hgood, if_neg h40, if_neg h64,
    if_pos hH, if_neg (show ¬(linkStart msg i = true) by simp [hstart])]

/-- Witness for the universally quantified part of `link_never_mid_word`:
at position 1 of `"xhttp://a.com"` the preceding code point `x` is a
letter, so the step adds no URL and advances one byte. -/
theorem link_never_mid_word_witness :
    (0 < 1 ∧ 1 < (asciiBytes "xhttp://a.com").length ∧
      ((decodeRuneInString ((asciiBytes "xhttp://a.com").drop 1)).1 = 72 ∨
        (decodeRuneInString ((asciiBytes "xhttp://a.com").drop 1)).1 =
          104) ∧
      (isLetter (decodeLastRune ((asciiBytes "xhttp://a.com").take 1)).1 =
          true ∨
        isDigit (decodeLastRune ((asciiBytes "xhttp://a.com").take 1)).1 =
          true)) ∧
    scanLoop (asciiBytes "xhttp://a.com") 13 1 [] [] [] =
      scanLoop (asciiBytes "xhttp://a.com") 12
        (1 + (decodeRuneInString ((asciiBytes "xhttp://a.com").drop 1)).2)
        [] [] [] :=
  ⟨⟨by decide, by decide, by decide, by decide⟩,
    link_never_mid_word.1 _ 1 12 [] [] [] (by decide) (by decide)
      (by decide) (by decide)⟩

/-- **C8** (confirmed).  For text starting at `@`, `mention` consumes
exactly the maximal run of word code points (letters, digits, underscore)
following the `@` — `runLen` measures that maximal run — stopping at the
first other code point or the end of the text; an empty run is no match;
on a match the mention is the run without the leading `@` and the width
includes the `@`.  `Parse` accumulates mentions in left-to-right
discovery order (`"@one,@two,@three"`), as it does emotions. -/
theorem mention_is_maximal_run :
    (∀ s : List Nat, s.head? = some 64 →
      (runLen (s.drop 1) = 0 → mention s = ([], 0)) ∧
      (runLen (s.drop 1) ≠ 0 →
        mention s =
          ((s.drop 1).take (runLen (s.drop 1)), 1 + runLen (s.drop 1)) ∧
        (s.length ≤ 1 + runLen (s.drop 1) ∨
          wordChar (decodeRuneInString
            (s.drop (1 + runLen (s.drop 1)))).1 = false))) ∧
    scan (asciiBytes "@one,@two,@three") =
      .ok ([asciiBytes "one", asciiBytes "two", asciiBytes "three"],
        [], []) := by
  refine ⟨?_, by decide⟩
  intro s hhead
  have hs1 : 1 ≤ s.length := by
    cases s with
    | nil => simp at hhead
    | cons b tl => simp
  have hml : mentionLoop s s.length 1 = 1 + runLenF s.length (s.drop 1) :=
    mentionLoop_eq_runLenF s s.length 1 (by omega)
  have hst : runLenF s.length (s.drop 1) = runLen (s.drop 1) :=
    runLenF_stable s.length (s.drop 1) (s.drop 1).length
      (by simp only [List.length_drop]; omega) (Nat.le_refl _)
  rw [hst] at hml
  constructor
  · intro h0
    rw [mention, if_pos (by rw [hml, h0])]
  · intro hne
    constructor
    · rw [mention, if_neg (by rw [hml]; omega), hml]
      have harith : 1 + runLen (s.drop 1) - 1 = runLen (s.drop 1) := by
        omega
      rw [sub, harith]
    · rcases runLenF_stop (s.drop 1).length (s.drop 1) (Nat.le_refl _)
          with h1 | h1
      · left
        have hru : runLenF (s.drop 1).length (s.drop 1) =
            runLen (s.drop 1) := rfl
        rw [hru, List.length_drop] at h1
        omega
      · right
        have hru : runLenF (s.drop 1).length (s.drop 1) =
            runLen (s.drop 1) := rfl
        rw [hru, List.drop_drop] at h1
        exact h1

/-- Witness for the universally quantified part of
`mention_is_maximal_run` at `"@ab,c"`: the maximal run after `@` is
`"ab"`, the mention drops the `@`, the width `3` includes it, and the
stopping code point `,` is not a word character. -/
theorem mention_is_maximal_run_witness :
    ((asciiBytes "@ab,c").head? = some 64 ∧
      runLen ((asciiBytes "@ab,c").drop 1) ≠ 0) ∧
    (mention (asciiBytes "@ab,c") =
      (((asciiBytes "@ab,c").drop 1).take
          (runLen ((asciiBytes "@ab,c").drop 1)),
        1 + runLen ((asciiBytes "@ab,c").drop 1)) ∧
      ((asciiBytes "@ab,c").length ≤
          1 + runLen ((asciiBytes "@ab,c").drop 1) ∨
        wordChar (decodeRuneInString ((asciiBytes "@ab,c").drop
          (1 + runLen ((asciiBytes "@ab,c").drop 1)))).1 = false)) :=
  ⟨⟨by decide, by decide⟩,
    (mention_is_maximal_run.1 _ (by decide)).2 (by decide)⟩

end Hcproto
